import Mathlib

/-!
Verification of `freecad/cross/workcell.py` (the `Workcell` proxy of the
CROSS FreeCAD workbench).

The development shallowly embeds the three algorithmic parts of the file:

* `place_xacro_objects` — kinematic placement propagation along attachment
  chains (placements are modelled abstractly as elements of a monoid with
  decidable equality, composition standing for FreeCAD's `Placement`
  multiplication);
* `set_joint_enum` — recomputing the `Parent`/`Child` enumerations of every
  joint;
* `export_urdf` / `onChanged` — building the `<robot>` element tree and the
  side effects (warnings, property writes, file writes) of the export path.

Collaborator code that lives outside `workcell.py` (`wb_utils`,
`freecad_utils`, `urdf_utils`, `utils`, and FreeCAD itself) is modelled from
the specification; every such definition carries a doc comment starting with
`Modelled from the spec:`.
-/

namespace Cross

/-! ## Definitions: placement propagation (`Workcell.place_xacro_objects`) -/

/-- Read-only data of a `Cross::Joint` used during placement propagation:
its static `Origin` offset and the placement returned by
`joint.Proxy.get_actuation_placement()`. -/
structure JointData (P : Type) where
  origin : P
  actuation : P

/-- Modelled from the spec: one element of a chain produced by
`wb_utils.get_xacro_chains` (not under `src/`): the xacro object, the joint
attaching it (`attached_by`) and the placement of the link it is attached to
(`attached_to`, stored directly as the link's read-only `Placement`). -/
structure Attachment (P : Type) where
  xo : Nat
  attached_by : Option Nat
  attached_to : Option P

/-- The mutable `Placement` properties touched by `place_xacro_objects`:
one per xacro object and one per joint. -/
structure PlaceState (P : Type) where
  xoPlacement : Nat → P
  jointPlacement : Nat → P

/-- Modelled from the spec: `freecad_utils.is_same_placement` (not under
`src/`), equality of placements; modelled as exact equality. -/
def is_same_placement {P : Type} [DecidableEq P] (p q : P) : Bool :=
  p = q

/-- The body of the inner loop of `place_xacro_objects` that writes the
xacro object's `Placement` when it differs from the accumulated one. -/
def finishXo {P : Type} [Monoid P] [DecidableEq P]
    (acc : P) (st : PlaceState P) (w : Nat) (a : Attachment P) :
    P × PlaceState P × Nat :=
  if is_same_placement (st.xoPlacement a.xo) acc then
    (acc, st, w)
  else
    (acc, { st with xoPlacement := Function.update st.xoPlacement a.xo acc }, w + 1)

/-- One iteration of the `for attachment in chain` loop of
`place_xacro_objects`: multiply in the attached-to link's placement, the
joint's origin (writing the joint's `Placement` when it differs) and the
joint's actuation placement, then write the xacro object's `Placement`.
The `Nat` component counts property writes. -/
def processAttachment {P : Type} [Monoid P] [DecidableEq P]
    (jd : Nat → JointData P) (s : P × PlaceState P × Nat) (a : Attachment P) :
    P × PlaceState P × Nat :=
  let acc0 : P :=
    match a.attached_to with
    | some linkPlacement => s.1 * linkPlacement
    | none => s.1
  match a.attached_by with
  | some j =>
    let acc1 := acc0 * (jd j).origin
    let st1 : PlaceState P :=
      if s.2.1.jointPlacement j ≠ acc1 then
        { s.2.1 with jointPlacement := Function.update s.2.1.jointPlacement j acc1 }
      else s.2.1
    let w1 : Nat := if s.2.1.jointPlacement j ≠ acc1 then s.2.2 + 1 else s.2.2
    finishXo (acc1 * (jd j).actuation) st1 w1 a
  | none => finishXo acc0 s.2.1 s.2.2 a

/-- The `for attachment in chain` loop, starting from accumulator `s.1`. -/
def runChain {P : Type} [Monoid P] [DecidableEq P]
    (jd : Nat → JointData P) (s : P × PlaceState P × Nat)
    (chain : List (Attachment P)) : P × PlaceState P × Nat :=
  chain.foldl (processAttachment jd) s

/-- Processing of one chain by `place_xacro_objects`: the accumulator starts
at the identity placement (`fc.Placement()`). -/
def placeChain {P : Type} [Monoid P] [DecidableEq P]
    (jd : Nat → JointData P) (st : PlaceState P) (w : Nat)
    (chain : List (Attachment P)) : PlaceState P × Nat :=
  ((runChain jd (1, st, w) chain).2.1, (runChain jd (1, st, w) chain).2.2)

/-- The `for chain in get_xacro_chains(...)` loop, threading state and
write count. -/
def runChains {P : Type} [Monoid P] [DecidableEq P]
    (jd : Nat → JointData P) (sw : PlaceState P × Nat)
    (chains : List (List (Attachment P))) : PlaceState P × Nat :=
  chains.foldl (fun s chain => placeChain jd s.1 s.2 chain) sw

/-- The full `Workcell.place_xacro_objects`: process every chain in order, counting
all property writes. -/
def place_xacro_objects {P : Type} [Monoid P] [DecidableEq P]
    (jd : Nat → JointData P) (chains : List (List (Attachment P)))
    (st : PlaceState P) : PlaceState P × Nat :=
  runChains jd (st, 0) chains

/-- The total factor an attachment contributes to the accumulated placement:
link placement (if attached to a link), then joint origin and joint
actuation placement (if attached by a joint). -/
def attFactor {P : Type} [Monoid P] (jd : Nat → JointData P)
    (a : Attachment P) : P :=
  a.attached_to.getD 1 *
    match a.attached_by with
    | some j => (jd j).origin * (jd j).actuation
    | none => 1

/-- The value written to a joint's `Placement`: the accumulated placement up
to and including the joint's origin, excluding its actuation placement. -/
def jointPart {P : Type} [Monoid P] (jd : Nat → JointData P) (acc : P)
    (a : Attachment P) (j : Nat) : P :=
  acc * a.attached_to.getD 1 * (jd j).origin

/-- All xacro-object ids appearing in a list of chains. -/
def allXos {P : Type} : List (List (Attachment P)) → List Nat
  | [] => []
  | c :: r => c.map (fun a => a.xo) ++ allXos r

/-- All joint ids appearing in a list of chains. -/
def allJoints {P : Type} : List (List (Attachment P)) → List Nat
  | [] => []
  | c :: r => c.filterMap (fun a => a.attached_by) ++ allJoints r

/-- A state is settled for a chain (relative to an incoming accumulator)
when every joint and xacro-object `Placement` along the chain already holds
the value the chain walk would write. -/
def ChainSettled {P : Type} [Monoid P] (jd : Nat → JointData P) :
    P → PlaceState P → List (Attachment P) → Prop
  | _, _, [] => True
  | acc, st, a :: rest =>
    (∀ j, a.attached_by = some j → st.jointPlacement j = jointPart jd acc a j)
    ∧ st.xoPlacement a.xo = acc * attFactor jd a
    ∧ ChainSettled jd (acc * attFactor jd a) st rest

/-! ## Definitions: joint enumerations (`Workcell.set_joint_enum`) -/

/-- The data `set_joint_enum` reads from a xacro object:
`xacro_object.Proxy.root_link` and `xacro_object.Proxy.get_link_names()`. -/
structure XacroObjectLinks where
  root_link : String
  link_names : List String
deriving DecidableEq

/-- The enumeration-related state of a `Cross::Joint`: the current
enumeration lists of its `Child` and `Parent` properties and the currently
selected values. -/
structure JointEnumState where
  childEnum : List String
  child : String
  parentEnum : List String
  parent : String
deriving DecidableEq

/-- Concatenation of `get_link_names()` over all xacro objects, in order. -/
def allLinkNames : List XacroObjectLinks → List String
  | [] => []
  | x :: r => x.link_names ++ allLinkNames r

/-- The `child_links` list built by `set_joint_enum`: the empty string
(the not-set sentinel) followed by every xacro object's root link. -/
def child_links (xos : List XacroObjectLinks) : List String :=
  "" :: xos.map (fun x => x.root_link)

/-- The `parent_links` list built by `set_joint_enum`: the empty string,
the workcell's `RootLink`, then every link name of every xacro object. -/
def parent_links (rootLink : String) (xos : List XacroObjectLinks) :
    List String :=
  "" :: rootLink :: allLinkNames xos

/-- Modelled from the spec: FreeCAD's behaviour when an enumeration property
is assigned a list (per the implementation note in `set_joint_enum`): the
list becomes the enumeration and the current value is kept when it is a
member of the new enumeration, otherwise it falls back to the first item. -/
def setEnumValue (newEnum : List String) (v : String) : String :=
  if v ∈ newEnum then v else newEnum.headD ""

/-- The body of the `for joint in self.get_joints()` loop: push the `Child`
and then the `Parent` enumeration, each write guarded by an inequality test
against the current enumeration. Returns the new joint state and the number
of property writes performed. -/
def updateJoint (cls pls : List String) (j : JointEnumState) :
    JointEnumState × Nat :=
  let r1 : JointEnumState × Nat :=
    if j.childEnum ≠ cls then
      ({ j with childEnum := cls, child := setEnumValue cls j.child }, 1)
    else (j, 0)
  if r1.1.parentEnum ≠ pls then
    ({ r1.1 with parentEnum := pls, parent := setEnumValue pls r1.1.parent },
      r1.2 + 1)
  else r1

/-- The full `Workcell.set_joint_enum`: recompute both enumeration lists and push
them to every joint, counting property writes. -/
def set_joint_enum (rootLink : String) (xos : List XacroObjectLinks)
    (joints : List JointEnumState) : List JointEnumState × Nat :=
  joints.foldr
    (fun j r =>
      ((updateJoint (child_links xos) (parent_links rootLink xos) j).1 :: r.1,
        (updateJoint (child_links xos) (parent_links rootLink xos) j).2 + r.2))
    ([], 0)

/-! ## Definitions: URDF export (`Workcell.export_urdf`) -/

/-- An XML attribute value: a plain string, or a placement rendered by
`urdf_utils.urdf_origin_from_placement`. -/
inductive AttrVal (P : Type) where
  | str (s : String)
  | placement (p : P)

/-- An XML element: tag, attributes in insertion order, children. -/
inductive Element (P : Type) where
  | mk (tag : String) (attrs : List (String × AttrVal P))
      (children : List (Element P))

def Element.tag {P : Type} : Element P → String
  | .mk t _ _ => t

def Element.attrs {P : Type} : Element P → List (String × AttrVal P)
  | .mk _ as _ => as

def Element.children {P : Type} : Element P → List (Element P)
  | .mk _ _ cs => cs

/-- Attribute lookup (Python's `element.attrib[key]`). -/
def Element.attr {P : Type} (e : Element P) (k : String) :
    Option (AttrVal P) :=
  (e.attrs.find? (fun p => p.1 == k)).map (fun p => p.2)

/-- The `filename` attribute of an element; elements tagged `xmlns:include`
always carry one (the real code would raise a `KeyError` otherwise). -/
def filenameOf {P : Type} (e : Element P) : String :=
  match e.attr "filename" with
  | some (AttrVal.str s) => s
  | _ => ""

/-- Modelled from the spec: `wb_utils.get_valid_urdf_name` (not under
`src/`); modelled as the identity on names. -/
def get_valid_urdf_name (s : String) : String := s

/-- Modelled from the spec: `wb_utils.ros_name` (not under `src/`);
modelled as the identity on names. -/
def ros_name (s : String) : String := s

/-- Modelled from the spec: `utils.get_valid_filename` (not under `src/`);
modelled as the identity on names. -/
def get_valid_filename (s : String) : String := s

/-- Modelled from the spec: `urdf_utils.urdf_origin_from_placement` (not
under `src/`): the `<origin/>` element rendering a placement. -/
def urdf_origin_from_placement {P : Type} (p : P) : Element P :=
  Element.mk "origin" [("value", AttrVal.placement p)] []

/-- The data `export_urdf` reads from a xacro object: its root link, its
`Placement`, and the children of the fragment returned by its own
`export_urdf()`. -/
structure XacroObjectM (P : Type) where
  root_link : String
  placement : P
  fragmentChildren : List (Element P)

/-- The data `export_urdf` reads from a real joint: `Parent`, `Child`,
`Origin`. -/
structure JointM (P : Type) where
  parent : String
  child : String
  origin : P

/-- Modelled from the spec: one element of the list produced by
`wb_utils.get_xacro_object_attachments` (not under `src/`): the xacro
object together with the joint attaching it, when one exists. -/
structure ExportAttachment (P : Type) where
  xacro_object : XacroObjectM P
  attached_by : Option (JointM P)

/-- The comment appended right after creating the `<robot/>` element. -/
def commentElt {P : Type} : Element P :=
  Element.mk "!comment"
    [("text", AttrVal.str
      "Generated by CROSS, a ROS Workbench for FreeCAD (https://github.com/galou/freecad.cross)")]
    []

/-- The synthetic root `<link/>` element named by `RootLink`. -/
def rootLinkElt {P : Type} (rootLink : String) : Element P :=
  Element.mk "link" [("name", AttrVal.str rootLink)] []

/-- The `<joint/>` element emitted for one attachment: parent/child/origin
come from the real joint when one exists, otherwise the synthetic root
link, the xacro object's root link, and the xacro object's `Placement`. -/
def attachmentJointElt {P : Type} (worldName : String)
    (a : ExportAttachment P) : Element P :=
  let pco : String × String × P :=
    match a.attached_by with
    | some j => (j.parent, j.child, j.origin)
    | none => (worldName, a.xacro_object.root_link, a.xacro_object.placement)
  Element.mk "joint"
    [("name", AttrVal.str (pco.1 ++ "_to_" ++ pco.2.1)),
     ("type", AttrVal.str "fixed")]
    [Element.mk "parent" [("link", AttrVal.str pco.1)] [],
     Element.mk "child" [("link", AttrVal.str pco.2.1)] [],
     urdf_origin_from_placement pco.2.2]

/-- The `for child_et in xacro_et` loop: record each previously unseen
include filename in the `includes` list, and append every child (includes
too) to the accumulated children. -/
def spliceChildren {P : Type} (r : List (Element P) × List String)
    (cs : List (Element P)) : List (Element P) × List String :=
  cs.foldl
    (fun r child =>
      (r.1 ++ [child],
        if child.tag == "xmlns:include" && !(r.2.contains (filenameOf child))
        then r.2 ++ [filenameOf child]
        else r.2))
    r

/-- The element tree built by `export_urdf`: the `<robot>` element with its
comment, the synthetic root link, and, per attachment, the xacro object's
fragment children followed by the attachment's joint element. -/
def buildRobotEt {P : Type} (name rootLink : String)
    (atts : List (ExportAttachment P)) : Element P :=
  Element.mk "robot"
    [("name", AttrVal.str (get_valid_urdf_name (ros_name name)))]
    (atts.foldl
      (fun r a =>
        ((spliceChildren r a.xacro_object.fragmentChildren).1
            ++ [attachmentJointElt rootLink a],
          (spliceChildren r a.xacro_object.fragmentChildren).2))
      ([commentElt, rootLinkElt rootLink], [])).1

/-- The attachment-generated part of the robot element's children, written
as a flat list: each xacro object's fragment children followed by its joint
element. -/
def splicedContent {P : Type} (rootLink : String) :
    List (ExportAttachment P) → List (Element P)
  | [] => []
  | a :: rest =>
    a.xacro_object.fragmentChildren
      ++ attachmentJointElt rootLink a :: splicedContent rootLink rest

/-- Number of elements with a given tag. -/
def countTag {P : Type} (es : List (Element P)) (t : String) : Nat :=
  (es.filter (fun e => e.tag == t)).length

/-- Number of include directives with a given filename. -/
def countIncludes {P : Type} (es : List (Element P)) (fn : String) : Nat :=
  (es.filter
    (fun e => e.tag == "xmlns:include" && filenameOf e == fn)).length

/-- The properties of the workcell object read or written by `export_urdf`
and `onChanged`. `ready` models `self.is_ready()`; `hasOutputPath` and
`hasRootLink` model `hasallattr(obj, ['OutputPath', 'RootLink'])`. -/
structure WorkcellProps where
  ready : Bool
  hasOutputPath : Bool
  hasRootLink : Bool
  outputPath : String
  rootLink : String
  name : String
deriving DecidableEq

/-- Observable side effects of the export path and of `onChanged`. -/
inductive Effect where
  | warn (msg : String) (gui : Bool)
  | setOutputPath (value : String)
  | mkdir (path : String)
  | writeFile (path : String)
deriving DecidableEq

/-- Is an effect a property write? The only property either code path ever
writes is `OutputPath`. -/
def isPropWrite : Effect → Bool
  | Effect.setOutputPath _ => true
  | _ => false

/-- The export path `Workcell.export_urdf`. `remove_ws` and `abs_path` model
`wb_utils.get_rel_and_abs_path` (not under `src/`, modelled from the spec:
it returns the workspace-relative and the absolute form of the path).
Returns the optional robot element, the updated properties, and the emitted
effects in order. -/
def export_urdf {P : Type} (remove_ws abs_path : String → String)
    (st : WorkcellProps) (atts : List (ExportAttachment P)) :
    Option (Element P) × WorkcellProps × List Effect :=
  if !st.ready then (none, st, [])
  else if !(st.hasOutputPath && st.hasRootLink) then (none, st, [])
  else if st.outputPath == "" then
    (none, st, [Effect.warn "Property `OutputPath` cannot be empty" true])
  else
    let robot := buildRobotEt st.name st.rootLink atts
    let p := remove_ws st.outputPath
    let output_path := abs_path st.outputPath
    let stEffs : WorkcellProps × List Effect :=
      if p ≠ st.outputPath then
        ({ st with outputPath := p }, [Effect.setOutputPath p])
      else (st, [])
    (some robot, stEffs.1,
      stEffs.2 ++
        [Effect.mkdir output_path,
         Effect.writeFile
           (output_path ++ "/urdf/" ++ get_valid_filename (ros_name st.name)
             ++ ".urdf.xacro"),
         Effect.writeFile (output_path ++ "/package.xml"),
         Effect.writeFile (output_path ++ "/CMakeLists.txt"),
         Effect.writeFile (output_path ++ "/launch/display.launch.py"),
         Effect.writeFile (output_path ++ "/rviz/robot_description.rviz")])

/-- The handler `Workcell.onChanged`: on an `OutputPath` change, rewrite the property to
its workspace-relative form (`wb_utils.remove_ros_workspace`, modelled by
the `remove_ws` argument), skipping the write when nothing changes. -/
def onChanged (remove_ws : String → String) (st : WorkcellProps)
    (prop : String) : WorkcellProps × List Effect :=
  if prop == "OutputPath" then
    if remove_ws st.outputPath ≠ st.outputPath then
      ({ st with outputPath := remove_ws st.outputPath },
        [Effect.setOutputPath (remove_ws st.outputPath)])
    else (st, [])
  else (st, [])

/-! ## Concrete fixtures used by witness theorems -/

/-- Joint data fixture: joint `j` has origin `2 + j` and actuation
placement `3 + j` (in the multiplicative monoid `ℕ`). -/
def jdW : Nat → JointData ℕ := fun j => ⟨2 + j, 3 + j⟩

/-- A chain of three attachments: a directly-rooted object, then two nested
attachments with joints and attached-to links. -/
def chainW : List (Attachment ℕ) :=
  [⟨0, none, none⟩, ⟨1, some 0, some 5⟩, ⟨2, some 1, some 7⟩]

/-- A single-chain chain list fixture. -/
def chainsW : List (List (Attachment ℕ)) := [chainW]

/-- An arbitrary starting state for the placement fixtures. -/
def stW : PlaceState ℕ := ⟨fun _ => 11, fun _ => 13⟩

/-- A xacro object fixture for the enumeration claims. -/
def xoW : XacroObjectLinks := ⟨"base", ["base", "tool"]⟩

/-- A joint fixture whose enumerations have never been pushed. -/
def j0W : JointEnumState := ⟨[], "", [], ""⟩

/-- The joint fixture after one `set_joint_enum` run. -/
def ujW : JointEnumState :=
  (updateJoint (child_links [xoW]) (parent_links "world" [xoW]) j0W).1

/-- An include directive element with the given filename. -/
def inclElt (fn : String) : Element ℕ :=
  Element.mk "xmlns:include" [("filename", AttrVal.str fn)] []

/-- A xacro object whose exported fragment contains an include directive. -/
def xoIncA : XacroObjectM ℕ := ⟨"a_root", 1, [inclElt "macros.xacro"]⟩

/-- A second xacro object whose fragment contains the same include. -/
def xoIncB : XacroObjectM ℕ := ⟨"b_root", 1, [inclElt "macros.xacro"]⟩

/-- Two attachments whose fragments share an identical include filename. -/
def attsInc : List (ExportAttachment ℕ) := [⟨xoIncA, none⟩, ⟨xoIncB, none⟩]

/-- A workcell whose `OutputPath` property does not exist
(`hasallattr` fails) but is otherwise ready. -/
def stMissingW : WorkcellProps := ⟨true, false, true, "pkg", "world", "wc"⟩

/-- A ready workcell whose `OutputPath` property is empty. -/
def stEmptyW : WorkcellProps := ⟨true, true, true, "", "world", "wc"⟩

/-- A ready workcell with a non-empty `OutputPath`. -/
def stOkW : WorkcellProps := ⟨true, true, true, "ws/src/pkg", "world", "wc"⟩

/-- A xacro object with an empty fragment and identity placement, attached
by no real joint. -/
def xoSoloW : XacroObjectM ℕ := ⟨"arm_base", 1, []⟩

/-! ## Lemmas: placement propagation -/

theorem chain_joint_tail_nodup {P : Type} (a : Attachment P)
    (rest : List (Attachment P))
    (hnd : ((a :: rest).filterMap (fun b => b.attached_by)).Nodup) :
    (rest.filterMap (fun b => b.attached_by)).Nodup := by
  rw [List.filterMap_cons] at hnd
  cases hab : a.attached_by with
  | none => rwa [hab] at hnd
  | some j' =>
    rw [hab] at hnd
    simp only [List.nodup_cons] at hnd
    exact hnd.2

theorem chain_joint_head_fresh {P : Type} (a : Attachment P)
    (rest : List (Attachment P)) (j : Nat) (hja : a.attached_by = some j)
    (hnd : ((a :: rest).filterMap (fun b => b.attached_by)).Nodup) :
    ∀ b ∈ rest, b.attached_by ≠ some j := by
  intro b hb hbj
  have hmem : j ∈ rest.filterMap (fun b => b.attached_by) :=
    List.mem_filterMap.mpr ⟨b, hb, hbj⟩
  rw [List.filterMap_cons, hja] at hnd
  simp only [List.nodup_cons] at hnd
  exact hnd.1 hmem

theorem ChainSettled_congr {P : Type} [Monoid P] (jd : Nat → JointData P)
    (chain : List (Attachment P)) :
    ∀ (acc : P) (st st' : PlaceState P),
      (∀ x ∈ chain.map (fun a => a.xo), st'.xoPlacement x = st.xoPlacement x) →
      (∀ j ∈ chain.filterMap (fun a => a.attached_by),
        st'.jointPlacement j = st.jointPlacement j) →
      ChainSettled jd acc st chain → ChainSettled jd acc st' chain := by
  induction chain with
  | nil => intro acc st st' _ _ _; trivial
  | cons a rest ih =>
    intro acc st st' hxo hjp hset
    obtain ⟨h1, h2, h3⟩ := hset
    refine ⟨?_, ?_, ?_⟩
    · intro j hja
      rw [hjp j (List.mem_filterMap.mpr ⟨a, List.mem_cons_self a rest, hja⟩),
        h1 j hja]
    · rw [hxo a.xo (by simp), h2]
    · exact ih _ st st'
        (fun x hx => hxo x (by simp [hx]))
        (fun j hj => hjp j (by
          obtain ⟨b, hb, hfb⟩ := List.mem_filterMap.mp hj
          exact List.mem_filterMap.mpr ⟨b, List.mem_cons_of_mem a hb, hfb⟩))
        h3

section PlaceLemmas

variable {P : Type} [Monoid P] [DecidableEq P]

theorem finishXo_fst (acc : P) (st : PlaceState P) (w : Nat) (a : Attachment P) :
    (finishXo acc st w a).1 = acc := by
  unfold finishXo
  split <;> rfl

theorem finishXo_xo_self (acc : P) (st : PlaceState P) (w : Nat) (a : Attachment P) :
    (finishXo acc st w a).2.1.xoPlacement a.xo = acc := by
  unfold finishXo
  split
  · next h =>
    simpa [is_same_placement] using h
  · simp [Function.update_same]

theorem finishXo_xo_frame (acc : P) (st : PlaceState P) (w : Nat) (a : Attachment P)
    (y : Nat) (hy : y ≠ a.xo) :
    (finishXo acc st w a).2.1.xoPlacement y = st.xoPlacement y := by
  unfold finishXo
  split
  · rfl
  · simp [Function.update_noteq hy]

theorem finishXo_joint (acc : P) (st : PlaceState P) (w : Nat) (a : Attachment P) :
    (finishXo acc st w a).2.1.jointPlacement = st.jointPlacement := by
  unfold finishXo
  split <;> rfl

theorem finishXo_noop (acc : P) (st : PlaceState P) (w : Nat) (a : Attachment P)
    (h : st.xoPlacement a.xo = acc) :
    finishXo acc st w a = (acc, st, w) := by
  unfold finishXo
  rw [if_pos]
  simpa [is_same_placement] using h

theorem processAttachment_fst (jd : Nat → JointData P) (acc : P)
    (st : PlaceState P) (w : Nat) (a : Attachment P) :
    (processAttachment jd (acc, st, w) a).1 = acc * attFactor jd a := by
  obtain ⟨x, jo, lo⟩ := a
  cases jo <;> cases lo <;>
    simp [processAttachment, attFactor, finishXo_fst, mul_assoc]

theorem processAttachment_xo_self (jd : Nat → JointData P) (acc : P)
    (st : PlaceState P) (w : Nat) (a : Attachment P) :
    (processAttachment jd (acc, st, w) a).2.1.xoPlacement a.xo
      = acc * attFactor jd a := by
  obtain ⟨x, jo, lo⟩ := a
  cases jo <;> cases lo <;>
    simp only [processAttachment] <;>
    rw [finishXo_xo_self] <;>
    simp [attFactor, mul_assoc]

theorem processAttachment_xo_frame (jd : Nat → JointData P) (acc : P)
    (st : PlaceState P) (w : Nat) (a : Attachment P) (y : Nat)
    (hy : y ≠ a.xo) :
    (processAttachment jd (acc, st, w) a).2.1.xoPlacement y
      = st.xoPlacement y := by
  obtain ⟨x, jo, lo⟩ := a
  replace hy : y ≠ x := hy
  cases jo <;> cases lo <;>
    simp only [processAttachment] <;>
    rw [finishXo_xo_frame _ _ _ _ _ hy] <;>
    split <;> rfl

theorem processAttachment_joint_self (jd : Nat → JointData P) (acc : P)
    (st : PlaceState P) (w : Nat) (a : Attachment P) (j : Nat)
    (hj : a.attached_by = some j) :
    (processAttachment jd (acc, st, w) a).2.1.jointPlacement j
      = jointPart jd acc a j := by
  obtain ⟨x, jo, lo⟩ := a
  replace hj : jo = some j := hj
  subst hj
  cases lo <;>
    simp only [processAttachment, finishXo_joint, jointPart] <;>
    split
  · next h => simp [Function.update_same]
  · next h =>
    simp only [ne_eq, not_not] at h
    simpa using h
  · next h => simp [Function.update_same]
  · next h =>
    simp only [ne_eq, not_not] at h
    simpa [mul_assoc] using h

theorem processAttachment_joint_frame (jd : Nat → JointData P) (acc : P)
    (st : PlaceState P) (w : Nat) (a : Attachment P) (j : Nat)
    (hj : a.attached_by ≠ some j) :
    (processAttachment jd (acc, st, w) a).2.1.jointPlacement j
      = st.jointPlacement j := by
  obtain ⟨x, jo, lo⟩ := a
  replace hj : jo ≠ some j := hj
  cases jo with
  | none =>
    cases lo <;> simp [processAttachment, finishXo_joint]
  | some j' =>
    have hjj : j ≠ j' := by
      intro h
      exact hj (by rw [h])
    cases lo <;>
      simp only [processAttachment, finishXo_joint] <;>
      split <;>
      simp [Function.update_noteq hjj]

theorem processAttachment_noop (jd : Nat → JointData P) (acc : P)
    (st : PlaceState P) (w : Nat) (a : Attachment P)
    (hxo : st.xoPlacement a.xo = acc * attFactor jd a)
    (hj : ∀ j, a.attached_by = some j →
      st.jointPlacement j = jointPart jd acc a j) :
    processAttachment jd (acc, st, w) a = (acc * attFactor jd a, st, w) := by
  obtain ⟨x, jo, lo⟩ := a
  cases jo with
  | none =>
    cases lo <;>
      · rw [show processAttachment jd (acc, st, w) ⟨x, none, _⟩
            = finishXo _ st w _ from rfl]
        rw [finishXo_noop]
        · simp [attFactor, mul_assoc]
        · simpa [attFactor, mul_assoc] using hxo
  | some j =>
    have hjeq : st.jointPlacement j = jointPart jd acc ⟨x, some j, lo⟩ j :=
      hj j rfl
    cases lo with
    | none =>
      simp only [processAttachment]
      rw [if_neg, if_neg]
      · rw [finishXo_noop]
        · simp [attFactor, mul_assoc]
        · simpa [attFactor, mul_assoc] using hxo
      · simpa [jointPart, mul_assoc] using hjeq
      · simpa [jointPart, mul_assoc] using hjeq
    | some lp =>
      simp only [processAttachment]
      rw [if_neg, if_neg]
      · rw [finishXo_noop]
        · simp [attFactor, mul_assoc]
        · simpa [attFactor, mul_assoc] using hxo
      · simpa [jointPart, mul_assoc] using hjeq
      · simpa [jointPart, mul_assoc] using hjeq

theorem runChain_nil (jd : Nat → JointData P) (s : P × PlaceState P × Nat) :
    runChain jd s [] = s := rfl

theorem runChain_cons (jd : Nat → JointData P) (s : P × PlaceState P × Nat)
    (a : Attachment P) (chain : List (Attachment P)) :
    runChain jd s (a :: chain) = runChain jd (processAttachment jd s a) chain := rfl

theorem runChain_xo_frame (jd : Nat → JointData P) (chain : List (Attachment P)) :
    ∀ (acc : P) (st : PlaceState P) (w y : Nat),
      y ∉ chain.map (fun a => a.xo) →
      (runChain jd (acc, st, w) chain).2.1.xoPlacement y = st.xoPlacement y := by
  induction chain with
  | nil => intro acc st w y _; rfl
  | cons a rest ih =>
    intro acc st w y hy
    simp only [List.map_cons, List.mem_cons, not_or] at hy
    rw [runChain_cons]
    rcases hps : processAttachment jd (acc, st, w) a with ⟨acc', st', w'⟩
    have hframe := processAttachment_xo_frame jd acc st w a y hy.1
    rw [hps] at hframe
    simp only at hframe
    rw [ih acc' st' w' y hy.2, hframe]

theorem runChain_joint_frame (jd : Nat → JointData P) (chain : List (Attachment P)) :
    ∀ (acc : P) (st : PlaceState P) (w j : Nat),
      (∀ a ∈ chain, a.attached_by ≠ some j) →
      (runChain jd (acc, st, w) chain).2.1.jointPlacement j = st.jointPlacement j := by
  induction chain with
  | nil => intro acc st w j _; rfl
  | cons a rest ih =>
    intro acc st w j hj
    rw [runChain_cons]
    rcases hps : processAttachment jd (acc, st, w) a with ⟨acc', st', w'⟩
    have hframe := processAttachment_joint_frame jd acc st w a j
      (hj a (List.mem_cons_self a rest))
    rw [hps] at hframe
    simp only at hframe
    rw [ih acc' st' w' j (fun b hb => hj b (List.mem_cons_of_mem a hb)), hframe]

theorem runChain_fst (jd : Nat → JointData P) (chain : List (Attachment P)) :
    ∀ (acc : P) (st : PlaceState P) (w : Nat),
      (runChain jd (acc, st, w) chain).1
        = acc * (chain.map (attFactor jd)).prod := by
  induction chain with
  | nil => intro acc st w; simp [runChain_nil]
  | cons a rest ih =>
    intro acc st w
    rw [runChain_cons]
    rcases hps : processAttachment jd (acc, st, w) a with ⟨acc', st', w'⟩
    have hfst := processAttachment_fst jd acc st w a
    rw [hps] at hfst
    simp only at hfst
    rw [ih acc' st' w', hfst, List.map_cons, List.prod_cons, mul_assoc]

theorem runChain_xo_val (jd : Nat → JointData P) (chain : List (Attachment P)) :
    ∀ (acc : P) (st : PlaceState P) (w : Nat),
      (chain.map (fun a => a.xo)).Nodup →
      ∀ (k : Nat) (hk : k < chain.length),
        (runChain jd (acc, st, w) chain).2.1.xoPlacement (chain.get ⟨k, hk⟩).xo
          = acc * ((chain.take (k + 1)).map (attFactor jd)).prod := by
  induction chain with
  | nil => intro acc st w _ k hk; exact absurd hk (by simp)
  | cons a rest ih =>
    intro acc st w hnd k hk
    simp only [List.map_cons, List.nodup_cons] at hnd
    rw [runChain_cons]
    rcases hps : processAttachment jd (acc, st, w) a with ⟨acc', st', w'⟩
    have hfst := processAttachment_fst jd acc st w a
    rw [hps] at hfst
    simp only at hfst
    cases k with
    | zero =>
      have hself := processAttachment_xo_self jd acc st w a
      rw [hps] at hself
      simp only at hself
      have hframe := runChain_xo_frame jd rest acc' st' w' a.xo hnd.1
      simp only [List.get]
      rw [hframe, hself]
      simp
    | succ k =>
      have := ih acc' st' w' hnd.2 k (by simpa using Nat.lt_of_succ_lt_succ hk)
      simp only [List.get]
      rw [this, hfst, List.take_succ_cons, List.map_cons, List.prod_cons, mul_assoc]

theorem runChain_joint_val (jd : Nat → JointData P) (chain : List (Attachment P)) :
    ∀ (acc : P) (st : PlaceState P) (w : Nat),
      (chain.filterMap (fun a => a.attached_by)).Nodup →
      ∀ (k : Nat) (hk : k < chain.length) (j : Nat),
        (chain.get ⟨k, hk⟩).attached_by = some j →
        (runChain jd (acc, st, w) chain).2.1.jointPlacement j
          = jointPart jd (acc * ((chain.take k).map (attFactor jd)).prod)
              (chain.get ⟨k, hk⟩) j := by
  induction chain with
  | nil => intro acc st w _ k hk; exact absurd hk (by simp)
  | cons a rest ih =>
    intro acc st w hnd k hk j hj
    rw [runChain_cons]
    rcases hps : processAttachment jd (acc, st, w) a with ⟨acc', st', w'⟩
    have hfst := processAttachment_fst jd acc st w a
    rw [hps] at hfst
    simp only at hfst
    cases k with
    | zero =>
      simp only [List.get] at hj ⊢
      have hself := processAttachment_joint_self jd acc st w a j hj
      rw [hps] at hself
      simp only at hself
      have hrest : ∀ b ∈ rest, b.attached_by ≠ some j := by
        intro b hb hbj
        have hmem : j ∈ rest.filterMap (fun a => a.attached_by) :=
          List.mem_filterMap.mpr ⟨b, hb, hbj⟩
        rw [List.filterMap_cons, hj] at hnd
        simp only [List.nodup_cons] at hnd
        exact hnd.1 hmem
      rw [runChain_joint_frame jd rest acc' st' w' j hrest, hself]
      simp
    | succ k =>
      simp only [List.get] at hj ⊢
      have hndr : (rest.filterMap (fun a => a.attached_by)).Nodup := by
        rw [List.filterMap_cons] at hnd
        cases hab : a.attached_by with
        | none => rwa [hab] at hnd
        | some j' =>
          rw [hab] at hnd
          simp only [List.nodup_cons] at hnd
          exact hnd.2
      have := ih acc' st' w' hndr k (by simpa using Nat.lt_of_succ_lt_succ hk) j hj
      rw [this, hfst, List.take_succ_cons, List.map_cons, List.prod_cons]
      simp [jointPart, mul_assoc]

theorem processAttachment_joint_skip (jd : Nat → JointData P) (acc : P)
    (st : PlaceState P) (w : Nat) (a : Attachment P) (j : Nat)
    (hja : a.attached_by = some j)
    (heq : st.jointPlacement j = jointPart jd acc a j) :
    (processAttachment jd (acc, st, w) a).2.1.jointPlacement
      = st.jointPlacement := by
  obtain ⟨x, jo, lo⟩ := a
  replace hja : jo = some j := hja
  subst hja
  cases lo <;>
    simp only [processAttachment, finishXo_joint] <;>
    rw [if_neg] <;>
    first
      | rfl
      | simpa [jointPart, mul_assoc] using heq

theorem runChain_noop (jd : Nat → JointData P) (chain : List (Attachment P)) :
    ∀ (acc : P) (st : PlaceState P) (w : Nat),
      ChainSettled jd acc st chain →
      runChain jd (acc, st, w) chain
        = (acc * (chain.map (attFactor jd)).prod, st, w) := by
  induction chain with
  | nil => intro acc st w _; simp [runChain_nil]
  | cons a rest ih =>
    intro acc st w hset
    obtain ⟨h1, h2, h3⟩ := hset
    rw [runChain_cons, processAttachment_noop jd acc st w a h2 h1,
      ih _ _ _ h3, List.map_cons, List.prod_cons, mul_assoc]

theorem runChain_establishes (jd : Nat → JointData P) (chain : List (Attachment P)) :
    ∀ (acc : P) (st : PlaceState P) (w : Nat),
      (chain.map (fun a => a.xo)).Nodup →
      (chain.filterMap (fun a => a.attached_by)).Nodup →
      ChainSettled jd acc (runChain jd (acc, st, w) chain).2.1 chain := by
  induction chain with
  | nil => intro acc st w _ _; trivial
  | cons a rest ih =>
    intro acc st w hndx hndj
    simp only [List.map_cons, List.nodup_cons] at hndx
    rw [runChain_cons]
    rcases hps : processAttachment jd (acc, st, w) a with ⟨acc', st', w'⟩
    have hfst : acc' = acc * attFactor jd a := by
      have := processAttachment_fst jd acc st w a
      rw [hps] at this
      simpa using this
    refine ⟨?_, ?_, ?_⟩
    · intro j hja
      have hself := processAttachment_joint_self jd acc st w a j hja
      rw [hps] at hself
      simp only at hself
      rw [runChain_joint_frame jd rest acc' st' w' j
        (chain_joint_head_fresh a rest j hja hndj), hself]
    · have hself := processAttachment_xo_self jd acc st w a
      rw [hps] at hself
      simp only at hself
      rw [runChain_xo_frame jd rest acc' st' w' a.xo hndx.1, hself]
    · rw [← hfst]
      exact ih acc' st' w' hndx.2 (chain_joint_tail_nodup a rest hndj)

theorem runChains_nil (jd : Nat → JointData P) (sw : PlaceState P × Nat) :
    runChains jd sw [] = sw := rfl

theorem runChains_cons (jd : Nat → JointData P) (sw : PlaceState P × Nat)
    (c : List (Attachment P)) (r : List (List (Attachment P))) :
    runChains jd sw (c :: r) = runChains jd (placeChain jd sw.1 sw.2 c) r := rfl

theorem placeChain_fst (jd : Nat → JointData P) (st : PlaceState P) (w : Nat)
    (c : List (Attachment P)) :
    (placeChain jd st w c).1 = (runChain jd (1, st, w) c).2.1 := rfl

theorem runChains_xo_frame (jd : Nat → JointData P)
    (chains : List (List (Attachment P))) :
    ∀ (st : PlaceState P) (w y : Nat),
      y ∉ allXos chains →
      (runChains jd (st, w) chains).1.xoPlacement y = st.xoPlacement y := by
  induction chains with
  | nil => intro st w y _; rfl
  | cons c r ih =>
    intro st w y hy
    simp only [allXos, List.mem_append, not_or] at hy
    rw [runChains_cons]
    rcases hpc : placeChain jd st w c with ⟨st', w'⟩
    have hst' : st' = (runChain jd (1, st, w) c).2.1 := by
      rw [← placeChain_fst jd st w c, hpc]
    rw [ih st' w' y hy.2, hst',
      runChain_xo_frame jd c 1 st w y hy.1]

theorem runChains_joint_frame (jd : Nat → JointData P)
    (chains : List (List (Attachment P))) :
    ∀ (st : PlaceState P) (w j : Nat),
      j ∉ allJoints chains →
      (runChains jd (st, w) chains).1.jointPlacement j = st.jointPlacement j := by
  induction chains with
  | nil => intro st w j _; rfl
  | cons c r ih =>
    intro st w j hj
    simp only [allJoints, List.mem_append, not_or] at hj
    rw [runChains_cons]
    rcases hpc : placeChain jd st w c with ⟨st', w'⟩
    have hst' : st' = (runChain jd (1, st, w) c).2.1 := by
      rw [← placeChain_fst jd st w c, hpc]
    have hchain : ∀ a ∈ c, a.attached_by ≠ some j := by
      intro a ha hja
      exact hj.1 (List.mem_filterMap.mpr ⟨a, ha, hja⟩)
    rw [ih st' w' j hj.2, hst',
      runChain_joint_frame jd c 1 st w j hchain]

theorem runChains_xo_val (jd : Nat → JointData P)
    (chains : List (List (Attachment P))) :
    ∀ (st : PlaceState P) (w : Nat),
      (allXos chains).Nodup →
      ∀ c ∈ chains, ∀ (k : Nat) (hk : k < c.length),
        (runChains jd (st, w) chains).1.xoPlacement (c.get ⟨k, hk⟩).xo
          = ((c.take (k + 1)).map (attFactor jd)).prod := by
  induction chains with
  | nil => intro st w _ c hc; exact absurd hc (by simp)
  | cons c0 r ih =>
    intro st w hnd c hc k hk
    rw [show allXos (c0 :: r)
        = c0.map (fun a => a.xo) ++ allXos r from rfl,
      List.nodup_append] at hnd
    rw [runChains_cons]
    rcases hpc : placeChain jd st w c0 with ⟨st', w'⟩
    have hst' : st' = (runChain jd (1, st, w) c0).2.1 := by
      rw [← placeChain_fst jd st w c0, hpc]
    rcases List.mem_cons.mp hc with heq | hmem
    · subst heq
      have hxmem : (c.get ⟨k, hk⟩).xo ∈ c.map (fun a => a.xo) := by
        exact List.mem_map.mpr ⟨c.get ⟨k, hk⟩, List.get_mem c k hk, rfl⟩
      have hnotin : (c.get ⟨k, hk⟩).xo ∉ allXos r := fun hin =>
        hnd.2.2 hxmem hin
      rw [runChains_xo_frame jd r st' w' _ hnotin, hst',
        runChain_xo_val jd c 1 st w hnd.1 k hk, one_mul]
    · exact ih st' w' hnd.2.1 c hmem k hk

theorem runChains_joint_val (jd : Nat → JointData P)
    (chains : List (List (Attachment P))) :
    ∀ (st : PlaceState P) (w : Nat),
      (allJoints chains).Nodup →
      ∀ c ∈ chains, ∀ (k : Nat) (hk : k < c.length) (j : Nat),
        (c.get ⟨k, hk⟩).attached_by = some j →
        (runChains jd (st, w) chains).1.jointPlacement j
          = jointPart jd (((c.take k).map (attFactor jd)).prod)
              (c.get ⟨k, hk⟩) j := by
  induction chains with
  | nil => intro st w _ c hc; exact absurd hc (by simp)
  | cons c0 r ih =>
    intro st w hnd c hc k hk j hj
    rw [show allJoints (c0 :: r)
        = c0.filterMap (fun a => a.attached_by) ++ allJoints r from rfl,
      List.nodup_append] at hnd
    rw [runChains_cons]
    rcases hpc : placeChain jd st w c0 with ⟨st', w'⟩
    have hst' : st' = (runChain jd (1, st, w) c0).2.1 := by
      rw [← placeChain_fst jd st w c0, hpc]
    rcases List.mem_cons.mp hc with heq | hmem
    · subst heq
      have hjmem : j ∈ c.filterMap (fun a => a.attached_by) :=
        List.mem_filterMap.mpr ⟨c.get ⟨k, hk⟩, List.get_mem c k hk, hj⟩
      have hnotin : j ∉ allJoints r := fun hin => hnd.2.2 hjmem hin
      rw [runChains_joint_frame jd r st' w' j hnotin, hst',
        runChain_joint_val jd c 1 st w hnd.1 k hk j hj, one_mul]
    · exact ih st' w' hnd.2.1 c hmem k hk j hj

theorem runChains_establishes (jd : Nat → JointData P)
    (chains : List (List (Attachment P))) :
    ∀ (st : PlaceState P) (w : Nat),
      (allXos chains).Nodup → (allJoints chains).Nodup →
      ∀ c ∈ chains, ChainSettled jd 1 (runChains jd (st, w) chains).1 c := by
  induction chains with
  | nil => intro st w _ _ c hc; exact absurd hc (by simp)
  | cons c0 r ih =>
    intro st w hx hj c hc
    rw [show allXos (c0 :: r)
        = c0.map (fun a => a.xo) ++ allXos r from rfl,
      List.nodup_append] at hx
    rw [show allJoints (c0 :: r)
        = c0.filterMap (fun a => a.attached_by) ++ allJoints r from rfl,
      List.nodup_append] at hj
    rw [runChains_cons]
    rcases hpc : placeChain jd st w c0 with ⟨st', w'⟩
    have hst' : st' = (runChain jd (1, st, w) c0).2.1 := by
      rw [← placeChain_fst jd st w c0, hpc]
    rcases List.mem_cons.mp hc with heq | hmem
    · subst heq
      have hest : ChainSettled jd 1 st' c := by
        rw [hst']
        exact runChain_establishes jd c 1 st w hx.1 hj.1
      exact ChainSettled_congr jd c 1 st' _
        (fun x hxm => runChains_xo_frame jd r st' w' x
          (fun hin => hx.2.2 hxm hin))
        (fun jm hjm => runChains_joint_frame jd r st' w' jm
          (fun hin => hj.2.2 hjm hin))
        hest
    · exact ih st' w' hx.2.1 hj.2.1 c hmem

theorem runChains_noop (jd : Nat → JointData P)
    (chains : List (List (Attachment P))) :
    ∀ (st : PlaceState P) (w : Nat),
      (∀ c ∈ chains, ChainSettled jd 1 st c) →
      runChains jd (st, w) chains = (st, w) := by
  induction chains with
  | nil => intro st w _; rfl
  | cons c r ih =>
    intro st w hset
    rw [runChains_cons]
    have hrc := runChain_noop jd c 1 st w (hset c (List.mem_cons_self c r))
    have hpc : placeChain jd st w c = (st, w) := by
      rw [placeChain, hrc]
    rw [hpc]
    exact ih st w (fun c' hc' => hset c' (List.mem_cons_of_mem c hc'))

end PlaceLemmas

/-! ## Claim theorems: placement propagation -/

/-- Claim C3: for every chain of attachments processed by
`place_xacro_objects`, each xacro object's resulting `Placement` equals the
product, accumulated in traversal order from the root outward, of each
attachment's link placement, joint origin and joint actuation placement;
and a chain whose single attachment has no joint and no attached-to link
yields the identity placement for the directly-rooted xacro object. -/
theorem place_xacro_objects_accumulates_chain_product {P : Type} [Monoid P]
    [DecidableEq P] (jd : Nat → JointData P)
    (chains : List (List (Attachment P))) (st : PlaceState P)
    (hnd : (allXos chains).Nodup) :
    (∀ c ∈ chains, ∀ (k : Nat) (hk : k < c.length),
      (place_xacro_objects jd chains st).1.xoPlacement (c.get ⟨k, hk⟩).xo
        = ((c.take (k + 1)).map (attFactor jd)).prod)
    ∧ ∀ (x : Nat) (st' : PlaceState P),
        (place_xacro_objects jd [[⟨x, none, none⟩]] st').1.xoPlacement x = 1 := by
  constructor
  · exact fun c hc k hk => runChains_xo_val jd chains st 0 hnd c hc k hk
  · intro x st'
    have h := processAttachment_xo_self jd 1 st' 0 ⟨x, none, none⟩
    simp [attFactor] at h
    simpa [place_xacro_objects, runChains, placeChain, runChain] using h

/-- Witness for C3: the three-attachment fixture chain at position 2. -/
theorem place_xacro_objects_accumulates_chain_product_witness :
    (allXos chainsW).Nodup
    ∧ (place_xacro_objects jdW chainsW stW).1.xoPlacement 2
        = ((chainW.take 3).map (attFactor jdW)).prod :=
  ⟨by decide,
    (place_xacro_objects_accumulates_chain_product jdW chainsW stW
      (by decide)).1 chainW (List.mem_cons_self chainW []) 2 (by decide)⟩

/-- Claim C4: `place_xacro_objects` is idempotent with respect to property
writes: running it a second time on the state produced by the first run
performs zero property writes (and leaves the state unchanged), because
every write is guarded by an equality check against the current value. -/
theorem place_xacro_objects_idempotent {P : Type} [Monoid P] [DecidableEq P]
    (jd : Nat → JointData P) (chains : List (List (Attachment P)))
    (st : PlaceState P)
    (hx : (allXos chains).Nodup) (hj : (allJoints chains).Nodup) :
    place_xacro_objects jd chains (place_xacro_objects jd chains st).1
      = ((place_xacro_objects jd chains st).1, 0) :=
  runChains_noop jd chains _ 0 (runChains_establishes jd chains st 0 hx hj)

/-- Witness for C4: re-running the fixture performs zero writes. -/
theorem place_xacro_objects_idempotent_witness :
    ((allXos chainsW).Nodup ∧ (allJoints chainsW).Nodup)
    ∧ place_xacro_objects jdW chainsW (place_xacro_objects jdW chainsW stW).1
        = ((place_xacro_objects jdW chainsW stW).1, 0) :=
  ⟨⟨by decide, by decide⟩,
    place_xacro_objects_idempotent jdW chainsW stW (by decide) (by decide)⟩

/-- Claim C9: `place_xacro_objects` also writes each chain joint's
`Placement`: for every attachment with a joint, the joint's `Placement`
ends up equal to the placement accumulated up to and including that joint's
origin but excluding its actuation placement; and the write is skipped
(the joint placements are left untouched) when the joint's `Placement`
already equals that value. -/
theorem place_xacro_objects_joint_placements {P : Type} [Monoid P]
    [DecidableEq P] (jd : Nat → JointData P)
    (chains : List (List (Attachment P))) (st : PlaceState P)
    (hj : (allJoints chains).Nodup) :
    (∀ c ∈ chains, ∀ (k : Nat) (hk : k < c.length) (j : Nat),
      (c.get ⟨k, hk⟩).attached_by = some j →
      (place_xacro_objects jd chains st).1.jointPlacement j
        = jointPart jd (((c.take k).map (attFactor jd)).prod)
            (c.get ⟨k, hk⟩) j)
    ∧ ∀ (acc : P) (st' : PlaceState P) (w : Nat) (a : Attachment P) (j : Nat),
        a.attached_by = some j →
        st'.jointPlacement j = jointPart jd acc a j →
        (processAttachment jd (acc, st', w) a).2.1.jointPlacement
          = st'.jointPlacement :=
  ⟨fun c hc k hk j hjc => runChains_joint_val jd chains st 0 hj c hc k hk j hjc,
    fun acc st' w a j h1 h2 => processAttachment_joint_skip jd acc st' w a j h1 h2⟩

/-- Witness for C9: the fixture chain's second joint. -/
theorem place_xacro_objects_joint_placements_witness :
    (allJoints chainsW).Nodup
    ∧ (place_xacro_objects jdW chainsW stW).1.jointPlacement 0
        = jointPart jdW ((chainW.take 1).map (attFactor jdW)).prod
            ⟨1, some 0, some 5⟩ 0 :=
  ⟨by decide,
    (place_xacro_objects_joint_placements jdW chainsW stW (by decide)).1
      chainW (List.mem_cons_self chainW []) 1 (by decide) 0 (by decide)⟩

/-! ## Lemmas: joint enumerations -/

theorem updateJoint_enums (cls pls : List String) (j : JointEnumState) :
    (updateJoint cls pls j).1.childEnum = cls
    ∧ (updateJoint cls pls j).1.parentEnum = pls := by
  simp only [updateJoint]
  split_ifs <;> simp_all

theorem updateJoint_noop (cls pls : List String) (j : JointEnumState)
    (h1 : j.childEnum = cls) (h2 : j.parentEnum = pls) :
    updateJoint cls pls j = (j, 0) := by
  simp [updateJoint, h1, h2]

theorem updateJoint_value_preserved (cls pls : List String) (j : JointEnumState) :
    (j.child ∈ cls → (updateJoint cls pls j).1.child = j.child)
    ∧ (j.parent ∈ pls → (updateJoint cls pls j).1.parent = j.parent) := by
  constructor
  · intro hm
    simp only [updateJoint, setEnumValue]
    split_ifs <;> simp_all
  · intro hm
    simp only [updateJoint, setEnumValue]
    split_ifs <;> simp_all

theorem set_joint_enum_fst (rootLink : String) (xos : List XacroObjectLinks)
    (joints : List JointEnumState) :
    (set_joint_enum rootLink xos joints).1
      = joints.map
          (fun j => (updateJoint (child_links xos) (parent_links rootLink xos) j).1) := by
  induction joints with
  | nil => rfl
  | cons j r ih =>
    simp only [set_joint_enum, List.foldr_cons, List.map_cons]
    simp only [set_joint_enum] at ih
    rw [ih]

theorem set_joint_enum_noop (rootLink : String) (xos : List XacroObjectLinks)
    (joints : List JointEnumState)
    (h : ∀ j ∈ joints, j.childEnum = child_links xos
      ∧ j.parentEnum = parent_links rootLink xos) :
    set_joint_enum rootLink xos joints = (joints, 0) := by
  induction joints with
  | nil => rfl
  | cons j r ih =>
    have hj := h j (List.mem_cons_self j r)
    have hr := ih (fun j' hj' => h j' (List.mem_cons_of_mem j hj'))
    simp only [set_joint_enum, List.foldr_cons] at hr ⊢
    rw [updateJoint_noop _ _ j hj.1 hj.2, hr]
    rfl

theorem forall2_map_self {α : Type} (l : List α) (g : α → α)
    (r : α → α → Prop) (h : ∀ j ∈ l, r j (g j)) :
    List.Forall₂ r l (l.map g) := by
  induction l with
  | nil => exact List.Forall₂.nil
  | cons j rest ih =>
    exact List.Forall₂.cons (h j (List.mem_cons_self j rest))
      (ih (fun j' hj' => h j' (List.mem_cons_of_mem j hj')))

/-! ## Claim theorems: joint enumerations -/

/-- Claim C5: `set_joint_enum` applied twice with the same xacro-object and
link set produces identical `Parent`/`Child` enumerations and performs zero
property writes on the second run; and a joint's already-selected
`Parent`/`Child` value is not overwritten as long as it remains a member
of the new enumeration. -/
theorem set_joint_enum_idempotent (rootLink : String)
    (xos : List XacroObjectLinks) (joints joints' : List JointEnumState)
    (w : Nat) (h : set_joint_enum rootLink xos joints = (joints', w)) :
    set_joint_enum rootLink xos joints' = (joints', 0)
    ∧ List.Forall₂ (fun j j' =>
        (j.child ∈ child_links xos → j'.child = j.child)
        ∧ (j.parent ∈ parent_links rootLink xos → j'.parent = j.parent))
      joints joints' := by
  have hj' : joints'
      = joints.map
          (fun j => (updateJoint (child_links xos) (parent_links rootLink xos) j).1) := by
    rw [← set_joint_enum_fst rootLink xos joints, h]
  constructor
  · apply set_joint_enum_noop
    intro j' hm
    rw [hj'] at hm
    obtain ⟨j, _, rfl⟩ := List.mem_map.mp hm
    exact updateJoint_enums _ _ j
  · rw [hj']
    exact forall2_map_self joints _ _
      (fun j _ => updateJoint_value_preserved _ _ j)

/-- Witness for C5: one xacro object and one joint with empty initial
enumerations; the first run performs two writes, the second none. -/
theorem set_joint_enum_idempotent_witness :
    set_joint_enum "world" [xoW] [j0W] = ([ujW], 2)
    ∧ (set_joint_enum "world" [xoW] [ujW] = ([ujW], 0)
      ∧ List.Forall₂ (fun j j' =>
          (j.child ∈ child_links [xoW] → j'.child = j.child)
          ∧ (j.parent ∈ parent_links "world" [xoW] → j'.parent = j.parent))
        [j0W] [ujW]) :=
  ⟨by decide, set_joint_enum_idempotent "world" [xoW] [j0W] [ujW] 2 (by decide)⟩

/-- Claim C10: every enumeration pushed by `set_joint_enum` begins with the
empty string sentinel: the `Child` enumeration is `""` followed by each
xacro object's root link, and the `Parent` enumeration is `""`, the
workcell's `RootLink`, then every link name of every xacro object; this
holds for every joint after every run. -/
theorem set_joint_enum_enum_shape (rootLink : String)
    (xos : List XacroObjectLinks) (joints : List JointEnumState) :
    ∀ j' ∈ (set_joint_enum rootLink xos joints).1,
      j'.childEnum = "" :: xos.map (fun x => x.root_link)
      ∧ j'.parentEnum = "" :: rootLink :: allLinkNames xos := by
  intro j' hm
  rw [set_joint_enum_fst] at hm
  obtain ⟨j, _, rfl⟩ := List.mem_map.mp hm
  have h := updateJoint_enums (child_links xos) (parent_links rootLink xos) j
  simpa [child_links, parent_links] using h

/-- Witness for C10: the fixture joint's enumerations after one run. -/
theorem set_joint_enum_enum_shape_witness :
    ujW ∈ (set_joint_enum "world" [xoW] [j0W]).1
    ∧ (ujW.childEnum = "" :: [xoW].map (fun x => x.root_link)
      ∧ ujW.parentEnum = "" :: "world" :: allLinkNames [xoW]) :=
  ⟨by decide, set_joint_enum_enum_shape "world" [xoW] [j0W] ujW (by decide)⟩

/-! ## Lemmas: URDF export -/

theorem spliceChildren_fst {P : Type} (cs : List (Element P)) :
    ∀ r : List (Element P) × List String,
      (spliceChildren r cs).1 = r.1 ++ cs := by
  induction cs with
  | nil => intro r; simp [spliceChildren]
  | cons c rest ih =>
    intro r
    simp only [spliceChildren, List.foldl_cons] at ih ⊢
    rw [ih]
    simp

theorem buildFold_fst {P : Type} (rootLink : String)
    (atts : List (ExportAttachment P)) :
    ∀ r : List (Element P) × List String,
      (atts.foldl
        (fun r a =>
          ((spliceChildren r a.xacro_object.fragmentChildren).1
              ++ [attachmentJointElt rootLink a],
            (spliceChildren r a.xacro_object.fragmentChildren).2)) r).1
        = r.1 ++ splicedContent rootLink atts := by
  induction atts with
  | nil => intro r; simp [splicedContent]
  | cons a rest ih =>
    intro r
    rw [List.foldl_cons, ih]
    simp [spliceChildren_fst, splicedContent]

theorem buildRobotEt_children {P : Type} (name rootLink : String)
    (atts : List (ExportAttachment P)) :
    (buildRobotEt name rootLink atts).children
      = commentElt :: rootLinkElt rootLink :: splicedContent rootLink atts := by
  have h := buildFold_fst rootLink atts ([commentElt, rootLinkElt rootLink], [])
  simp only [buildRobotEt, Element.children]
  rw [h]
  rfl

/-! ## Claim theorems: URDF export -/

/-- Claim C7: whenever `export_urdf` builds the robot element tree, it
appends exactly one synthetic root link element, whose `name` attribute
equals the workcell's `RootLink`, before any attachment content is spliced
in: the children are the comment, the root link element, then the
attachment content. -/
theorem export_root_link_first {P : Type} (name rootLink : String)
    (atts : List (ExportAttachment P)) :
    (buildRobotEt name rootLink atts).children
      = commentElt :: rootLinkElt rootLink :: splicedContent rootLink atts
    ∧ countTag [commentElt, rootLinkElt (P := P) rootLink] "link" = 1
    ∧ (rootLinkElt (P := P) rootLink).attr "name"
        = some (AttrVal.str rootLink) := by
  refine ⟨buildRobotEt_children name rootLink atts, ?_, ?_⟩
  · rfl
  · rfl

/-- Claim C1 (code bug): the `includes` deduplication list of `export_urdf`
is dead code — every fragment child is appended to the robot element
unconditionally, so two xacro objects sharing an identical include filename
produce TWO include directives in the final tree, not one. -/
theorem export_includes_duplicated :
    countIncludes (buildRobotEt "wc" "world" attsInc).children "macros.xacro"
      = 2 := by
  rfl

/-- Claim C6: the joint element emitted for an attachment has type `fixed`
and name `parent_to_child`, with parent, child and origin taken from the
real joint when one exists, and otherwise the root link, the xacro object's
root link and its `Placement`; one xacro object with no real joint yields
exactly one synthesized fixed joint, with identity origin when the xacro
object's placement is the identity. -/
theorem export_attachment_joint_shape {P : Type} [Monoid P]
    (name rootLink : String) (xo : XacroObjectM P) (jm : JointM P) :
    ((buildRobotEt name rootLink [⟨xo, some jm⟩]).children
      = [commentElt, rootLinkElt rootLink] ++ xo.fragmentChildren
        ++ [Element.mk "joint"
            [("name", AttrVal.str (jm.parent ++ "_to_" ++ jm.child)),
             ("type", AttrVal.str "fixed")]
            [Element.mk "parent" [("link", AttrVal.str jm.parent)] [],
             Element.mk "child" [("link", AttrVal.str jm.child)] [],
             urdf_origin_from_placement jm.origin]])
    ∧ ((buildRobotEt name rootLink [⟨xo, none⟩]).children
      = [commentElt, rootLinkElt rootLink] ++ xo.fragmentChildren
        ++ [Element.mk "joint"
            [("name", AttrVal.str (rootLink ++ "_to_" ++ xo.root_link)),
             ("type", AttrVal.str "fixed")]
            [Element.mk "parent" [("link", AttrVal.str rootLink)] [],
             Element.mk "child" [("link", AttrVal.str xo.root_link)] [],
             urdf_origin_from_placement xo.placement]])
    ∧ ((∀ e ∈ xo.fragmentChildren, e.tag ≠ "joint") →
      countTag (buildRobotEt name rootLink [⟨xo, none⟩]).children "joint" = 1)
    ∧ (xo.placement = 1 →
      (attachmentJointElt rootLink (⟨xo, none⟩ : ExportAttachment P)).children
        = [Element.mk "parent" [("link", AttrVal.str rootLink)] [],
           Element.mk "child" [("link", AttrVal.str xo.root_link)] [],
           urdf_origin_from_placement 1]) := by
  refine ⟨?_, ?_, ?_, ?_⟩
  · rw [buildRobotEt_children]
    simp [splicedContent, attachmentJointElt]
  · rw [buildRobotEt_children]
    simp [splicedContent, attachmentJointElt]
  · intro hfrag
    have hnil : xo.fragmentChildren.filter (fun e => e.tag == "joint") = [] :=
      List.filter_eq_nil_iff.mpr (fun e he => by simpa using hfrag e he)
    rw [countTag, buildRobotEt_children]
    simp [splicedContent, List.filter_append, hnil, commentElt, rootLinkElt,
      attachmentJointElt, Element.tag]
    intro e he
    exact hfrag e he
  · intro hp
    simp [attachmentJointElt, hp, Element.children]

/-- Witness for C6: a single xacro object with empty fragment and identity
placement. -/
theorem export_attachment_joint_shape_witness :
    (∀ e ∈ xoSoloW.fragmentChildren, e.tag ≠ "joint")
    ∧ xoSoloW.placement = 1
    ∧ countTag (buildRobotEt "wc" "world" [⟨xoSoloW, none⟩]).children "joint" = 1
    ∧ (attachmentJointElt "world" (⟨xoSoloW, none⟩ : ExportAttachment ℕ)).children
        = [Element.mk "parent" [("link", AttrVal.str "world")] [],
           Element.mk "child" [("link", AttrVal.str "arm_base")] [],
           urdf_origin_from_placement 1] := by
  have h := export_attachment_joint_shape (P := ℕ) "wc" "world" xoSoloW ⟨"p", "c", 1⟩
  refine ⟨?_, rfl, h.2.2.1 ?_, ?_⟩
  · intro e he
    simp [xoSoloW] at he
  · intro e he
    simp [xoSoloW] at he
  · simpa [xoSoloW] using h.2.2.2 rfl

/-- Claim C2 counterexample: with the `OutputPath` property missing
(`hasallattr` fails) but the proxy ready, `export_urdf` aborts silently —
the effect list is empty, so no user-visible warning is emitted, contrary
to the claim. -/
theorem export_missing_attr_aborts_silently :
    export_urdf (P := ℕ) id id stMissingW [] = (none, stMissingW, []) := rfl

/-- Claim C2 (amended): `export_urdf` validates its required properties
before doing anything else; when `OutputPath` or `RootLink` is missing it
aborts silently, and when `OutputPath` is empty it aborts with a
user-visible warning; in both cases no export occurs and no files or
properties are written (the state is unchanged). -/
theorem export_urdf_validates_first {P : Type}
    (remove_ws abs_path : String → String) (st : WorkcellProps)
    (atts : List (ExportAttachment P)) (hready : st.ready = true) :
    ((st.hasOutputPath && st.hasRootLink) = false →
      export_urdf remove_ws abs_path st atts = (none, st, []))
    ∧ ((st.hasOutputPath && st.hasRootLink) = true → st.outputPath = "" →
      export_urdf remove_ws abs_path st atts
        = (none, st, [Effect.warn "Property `OutputPath` cannot be empty" true])) := by
  constructor
  · intro h
    simp [export_urdf, hready, h]
  · intro h hempty
    simp [export_urdf, hready, h, hempty]

/-- Witness for C2: the ready workcell with an empty `OutputPath` aborts
with exactly the warning effect. -/
theorem export_urdf_validates_first_witness :
    stEmptyW.ready = true
    ∧ export_urdf (P := ℕ) id id stEmptyW []
        = (none, stEmptyW,
            [Effect.warn "Property `OutputPath` cannot be empty" true]) :=
  ⟨rfl, (export_urdf_validates_first id id stEmptyW [] rfl).2 rfl rfl⟩

/-- Claim C8: both `onChanged` (on an `OutputPath` change) and `export_urdf`
normalize `OutputPath` to its workspace-relative form, skipping the write
when the normalized value equals the current one, and `OutputPath` is the
only property either code path modifies: `onChanged` emits no effect other
than the possible property write, and the property writes of `export_urdf`
are exactly the possible `OutputPath` rewrite. -/
theorem output_path_normalization {P : Type}
    (remove_ws abs_path : String → String) (st : WorkcellProps)
    (atts : List (ExportAttachment P)) :
    (onChanged remove_ws st "OutputPath"
      = if remove_ws st.outputPath ≠ st.outputPath then
          ({ st with outputPath := remove_ws st.outputPath },
            [Effect.setOutputPath (remove_ws st.outputPath)])
        else (st, []))
    ∧ ((onChanged remove_ws st "OutputPath").2.filter
        (fun e => !(isPropWrite e)) = [])
    ∧ (st.ready = true → (st.hasOutputPath && st.hasRootLink) = true →
      st.outputPath ≠ "" →
      (export_urdf remove_ws abs_path st atts).2.2.filter isPropWrite
        = (if remove_ws st.outputPath ≠ st.outputPath then
            [Effect.setOutputPath (remove_ws st.outputPath)]
          else [])
      ∧ (export_urdf remove_ws abs_path st atts).2.1.outputPath
          = remove_ws st.outputPath) := by
  refine ⟨?_, ?_, ?_⟩
  · simp [onChanged]
  · simp only [onChanged]
    split_ifs <;> simp [isPropWrite]
  · intro h1 h2 h3
    have hob : (st.outputPath == "") = false := beq_eq_false_iff_ne.mpr h3
    simp only [export_urdf, h1, h2, hob]
    simp only [Bool.not_true, Bool.false_eq_true, if_false]
    split_ifs with hp
    · simp [isPropWrite]
    · simp [isPropWrite]
      exact (not_ne_iff.mp hp).symm

/-- Witness for C8: a concrete normalizer that rewrites the fixture's
output path, so the property write occurs with the normalized value. -/
theorem output_path_normalization_witness :
    (stOkW.ready = true ∧ stOkW.outputPath ≠ "")
    ∧ ((export_urdf (P := ℕ) (fun _ => "pkg") id stOkW []).2.2.filter isPropWrite
        = (if (fun _ => "pkg") stOkW.outputPath ≠ stOkW.outputPath then
            [Effect.setOutputPath ((fun _ => "pkg") stOkW.outputPath)]
          else [])
      ∧ (export_urdf (P := ℕ) (fun _ => "pkg") id stOkW []).2.1.outputPath
          = (fun _ => "pkg") stOkW.outputPath) :=
  ⟨⟨rfl, by decide⟩,
    (output_path_normalization (fun _ => "pkg") id stOkW []).2.2 rfl rfl (by decide)⟩
